import Mathlib

/-!
Verification of the QuickText Pro keystroke expansion engine
(`KeyboardMonitor` in `quicktext_pro.py`).

The engine is embedded shallowly: the mutable instance fields of
`KeyboardMonitor` become a state record, every key press is processed by a
pure step function `onPress` that returns the forward/suppress decision,
the list of synthetic input/clipboard/signal actions performed, and the new
state.  Timestamps (`time.time()` floats compared against a 2-second idle
threshold) are modelled as rationals.
-/

namespace QuickTextPro

/-- Press-event payload: a printable key carrying a character
(`hasattr(key, 'char') and key.char` in the source), or one of the special
`pynput` keys the monitor inspects.  `ctrl` is the generic control key used
by the synthetic paste chord. -/
inductive Key where
  | char (c : Char)
  | space
  | enter
  | tab
  | backspace
  | ctrl_l
  | ctrl_r
  | ctrl
  | otherKey
deriving DecidableEq, Repr

/-- `self.mode`, either `"hotkey"` or `"auto"`. -/
inductive Mode where
  | hotkey
  | auto
deriving DecidableEq, Repr

/-- The mutable fields of `KeyboardMonitor` that the event callbacks touch. -/
structure MonitorState where
  mode : Mode
  shortcuts : List (String × String)
  buffer : String
  last_key_time : ℚ
  ctrl_pressed : Bool
  pending_expansion : Bool
deriving DecidableEq, Repr

/-- One observable side effect of the engine: a synthetic key press/release
(`keyboard_controller.press/release`), a paced delay (`time.sleep`, in
milliseconds), a clipboard write (`pyperclip.copy`), or the
`expansion_triggered` Qt signal. -/
inductive Action where
  | press (k : Key)
  | release (k : Key)
  | sleep (ms : Nat)
  | setClipboard (s : String)
  | emitExpansion (keyword phrase : String)
deriving DecidableEq, Repr

/-- The value returned by `on_press` to the `pynput` listener: `suppress`
models `return False` (the event is swallowed), `forward` models any other
return (the event reaches the target application). -/
inductive Decision where
  | forward
  | suppress
deriving DecidableEq, Repr

/-- The keys treated as delimiters: `key in [Key.space, Key.enter, Key.tab]`. -/
def isDelimiter : Key → Bool
  | Key.space => true
  | Key.enter => true
  | Key.tab => true
  | _ => false

/-- Python string concatenation `buffer + ch` for a single character. -/
def pushChar (s : String) (c : Char) : String :=
  String.mk (s.data ++ [c])

/-- Python `str.lower()`, character by character. -/
def lowerStr (s : String) : String :=
  String.mk (s.data.map Char.toLower)

/-- Python `s[:-1]`: the string without its last character. -/
def popLast (s : String) : String :=
  String.mk s.data.dropLast

/-- Accumulating tokenizer behind `stripWords`: `cur` holds the reversed
characters of the word in progress. -/
def wordsAux : List Char → List Char → List String
  | [], cur => if cur.isEmpty then [] else [String.mk cur.reverse]
  | c :: rest, cur =>
      if c.isWhitespace then
        if cur.isEmpty then wordsAux rest []
        else String.mk cur.reverse :: wordsAux rest []
      else wordsAux rest (c :: cur)

/-- `self.buffer.strip().split()`: the whitespace-delimited tokens of the
buffer (leading/trailing whitespace and empty pieces discarded). -/
def stripWords (b : String) : List String :=
  wordsAux b.data []

/-- `check_for_expansion`: the last token of the buffer, lower-cased, is a
key of the shortcut dictionary. -/
def checkForExpansion (st : MonitorState) : Bool :=
  match (stripWords st.buffer).getLast? with
  | none => false
  | some w => (st.shortcuts.lookup (lowerStr w)).isSome

/-- The `for _ in range(len(keyword))` loop of `expand_from_buffer`:
`n` backspace press/release pairs, each followed by a 10 ms pause. -/
def backspaceBurst : Nat → List Action
  | 0 => []
  | n + 1 =>
      Action.press Key.backspace :: Action.release Key.backspace ::
        Action.sleep 10 :: backspaceBurst n

/-- The synthetic Ctrl+V paste chord of `expand_from_buffer`. -/
def pasteChord : List Action :=
  [Action.press Key.ctrl, Action.press (Key.char 'v'), Action.sleep 50,
   Action.release (Key.char 'v'), Action.release Key.ctrl]

/-- `expand_from_buffer`: if the last token of the buffer (lower-cased) maps
to a phrase, erase the keyword with backspaces, copy the phrase to the
clipboard, paste it, emit the `expansion_triggered` signal and clear the
buffer; otherwise do nothing.  Returns the performed actions in order and
the updated state. -/
def expandFromBuffer (st : MonitorState) : List Action × MonitorState :=
  match (stripWords st.buffer).getLast? with
  | none => ([], st)
  | some w =>
    match st.shortcuts.lookup (lowerStr w) with
    | none => ([], st)
    | some phrase =>
        (backspaceBurst (lowerStr w).length
           ++ [Action.setClipboard phrase, Action.sleep 50]
           ++ pasteChord
           ++ [Action.emitExpansion (lowerStr w) phrase],
         { st with buffer := "" })

/-- The idle reset of `on_press`: clear the buffer when more than 2 seconds
elapsed since the last processed press. -/
def applyIdleReset (st : MonitorState) (t : ℚ) : MonitorState :=
  if t - st.last_key_time > 2 then { st with buffer := "" } else st

/-- The hotkey-mode branch of `on_press` (after idle reset and Ctrl
tracking): Ctrl+Space invokes `expand_from_buffer`; otherwise characters and
Space build the buffer and Backspace erases one character. -/
def hotkeyDispatch (st : MonitorState) (key : Key) :
    Decision × List Action × MonitorState :=
  if st.ctrl_pressed = true ∧ key = Key.space then
    let r := expandFromBuffer st
    (Decision.forward, r.1, r.2)
  else
    match key with
    | Key.char c => (Decision.forward, [], { st with buffer := pushChar st.buffer c })
    | Key.space => (Decision.forward, [], { st with buffer := pushChar st.buffer ' ' })
    | Key.backspace =>
        if st.buffer.length > 0 then
          (Decision.forward, [], { st with buffer := popLast st.buffer })
        else
          (Decision.forward, [], st)
    | _ => (Decision.forward, [], st)

/-- The auto-expand branch of `on_press`: characters build the buffer; a
delimiter either triggers an expansion (setting `pending_expansion` and
suppressing the delimiter) or clears the buffer and is forwarded; Backspace
erases one character. -/
def autoDispatch (st : MonitorState) (key : Key) :
    Decision × List Action × MonitorState :=
  match key with
  | Key.char c => (Decision.forward, [], { st with buffer := pushChar st.buffer c })
  | Key.space | Key.enter | Key.tab =>
      if checkForExpansion st = true then
        let r := expandFromBuffer { st with pending_expansion := true }
        (Decision.suppress, r.1, r.2)
      else
        (Decision.forward, [], { st with buffer := "" })
  | Key.backspace =>
      if st.buffer.length > 0 then
        (Decision.forward, [], { st with buffer := popLast st.buffer })
      else
        (Decision.forward, [], st)
  | _ => (Decision.forward, [], st)

/-- The body of `on_press` past the `pending_expansion` early return: idle
reset, timestamp update, Ctrl tracking, then the mode-specific dispatch. -/
def normalStep (st : MonitorState) (key : Key) (t : ℚ) :
    Decision × List Action × MonitorState :=
  let st2 := { applyIdleReset st t with last_key_time := t }
  if key = Key.ctrl_l ∨ key = Key.ctrl_r then
    (Decision.forward, [], { st2 with ctrl_pressed := true })
  else
    match st2.mode with
    | Mode.hotkey => hotkeyDispatch st2 key
    | Mode.auto => autoDispatch st2 key

/-- `on_press` for a running monitor: if an expansion is pending and the
key is a delimiter, clear the flag and suppress the event; otherwise run the
normal classification. -/
def onPress (st : MonitorState) (key : Key) (t : ℚ) :
    Decision × List Action × MonitorState :=
  if st.pending_expansion = true ∧ isDelimiter key = true then
    (Decision.suppress, [], { st with pending_expansion := false })
  else
    normalStep st key t

/-- `on_release`: only Ctrl releases are observed; they clear
`ctrl_pressed`. -/
def onRelease (st : MonitorState) (key : Key) : MonitorState :=
  if key = Key.ctrl_l ∨ key = Key.ctrl_r then
    { st with ctrl_pressed := false }
  else
    st

/-- A raw listener event: a timed press or a release. -/
inductive Event where
  | press (k : Key) (t : ℚ)
  | release (k : Key)
deriving DecidableEq, Repr

/-- Processing of one event by the listener callbacks. -/
def stepEvent (st : MonitorState) (e : Event) :
    Decision × List Action × MonitorState :=
  match e with
  | Event.press k t => onPress st k t
  | Event.release k => (Decision.forward, [], onRelease st k)

/-- State after the listener processes a sequence of events in order. -/
def runEvents (st : MonitorState) : List Event → MonitorState
  | [] => st
  | e :: es => runEvents (stepEvent st e).2.2 es

/-- Character presses with timestamps, as listener events. -/
def charPresses (cs : List (Char × ℚ)) : List Event :=
  cs.map (fun p => Event.press (Key.char p.1) p.2)

/-- The string formed by a list of timed characters. -/
def stringOfChars (cs : List (Char × ℚ)) : String :=
  String.mk (cs.map Prod.fst)

/-- Every gap between consecutive timed characters, starting from `prev`,
is at most the 2-second idle threshold. -/
def gapsChained : ℚ → List (Char × ℚ) → Prop
  | _, [] => True
  | prev, (_, t) :: rest => t - prev ≤ 2 ∧ gapsChained t rest

/-- Gaps between consecutive presses inside the sequence are at most
2 seconds (the gap before the first press is unconstrained). -/
def gapsWithin : List (Char × ℚ) → Prop
  | [] => True
  | (_, t) :: rest => gapsChained t rest

/-- Number of synthetic Backspace presses in a trace. -/
def countBackspacePresses : List Action → Nat
  | [] => 0
  | Action.press Key.backspace :: rest => countBackspacePresses rest + 1
  | _ :: rest => countBackspacePresses rest

/-- Number of synthetic Backspace releases in a trace. -/
def countBackspaceReleases : List Action → Nat
  | [] => 0
  | Action.release Key.backspace :: rest => countBackspaceReleases rest + 1
  | _ :: rest => countBackspaceReleases rest

/-- The clipboard writes of a trace, in order. -/
def clipboardWrites : List Action → List String
  | [] => []
  | Action.setClipboard s :: rest => s :: clipboardWrites rest
  | _ :: rest => clipboardWrites rest

/-- The `expansion_triggered` emissions of a trace, in order. -/
def emitsOf : List Action → List (String × String)
  | [] => []
  | Action.emitExpansion k p :: rest => (k, p) :: emitsOf rest
  | _ :: rest => emitsOf rest

/-- The shortcut snapshot of the spec's worked example. -/
def sampleShortcuts : List (String × String) :=
  [("tady", "Thank you very much in advance."),
   ("hello", "Hello, how can I help you today?")]

/-- A monitor in auto mode about to expand `tady`. -/
def sampleAuto : MonitorState :=
  { mode := Mode.auto
    shortcuts := sampleShortcuts
    buffer := "please tady"
    last_key_time := 0
    ctrl_pressed := false
    pending_expansion := false }

/-- A monitor in hotkey mode. -/
def sampleHotkey : MonitorState :=
  { mode := Mode.hotkey
    shortcuts := sampleShortcuts
    buffer := "please tady"
    last_key_time := 0
    ctrl_pressed := false
    pending_expansion := false }

/-- A monitor in auto mode whose buffer ends in an unknown token. -/
def sampleNoMatch : MonitorState :=
  { mode := Mode.auto
    shortcuts := sampleShortcuts
    buffer := "hello world"
    last_key_time := 0
    ctrl_pressed := false
    pending_expansion := false }

/-- A monitor that has just triggered an expansion and owes the stream one
suppressed delimiter. -/
def samplePending : MonitorState :=
  { mode := Mode.auto
    shortcuts := sampleShortcuts
    buffer := ""
    last_key_time := 0
    ctrl_pressed := false
    pending_expansion := true }

/-! ### Basic facts about the expansion procedure -/

theorem expandFromBuffer_match (st : MonitorState) (w phrase : String)
    (hw : (stripWords st.buffer).getLast? = some w)
    (hp : st.shortcuts.lookup (lowerStr w) = some phrase) :
    expandFromBuffer st =
      (backspaceBurst (lowerStr w).length
         ++ [Action.setClipboard phrase, Action.sleep 50]
         ++ pasteChord
         ++ [Action.emitExpansion (lowerStr w) phrase],
       { st with buffer := "" }) := by
  simp only [expandFromBuffer, hw, hp]

theorem checkForExpansion_true_iff (st : MonitorState) :
    checkForExpansion st = true ↔
      ∃ w phrase, (stripWords st.buffer).getLast? = some w ∧
        st.shortcuts.lookup (lowerStr w) = some phrase := by
  constructor
  · intro h
    unfold checkForExpansion at h
    cases hw : (stripWords st.buffer).getLast? with
    | none => rw [hw] at h; exact absurd h (by simp)
    | some w =>
        rw [hw] at h
        have h2 : (st.shortcuts.lookup (lowerStr w)).isSome = true := h
        obtain ⟨p, hp⟩ := Option.isSome_iff_exists.mp h2
        exact ⟨w, p, rfl, hp⟩
  · rintro ⟨w, p, hw, hp⟩
    unfold checkForExpansion
    rw [hw]
    show (st.shortcuts.lookup (lowerStr w)).isSome = true
    rw [hp]
    rfl

theorem expandFromBuffer_nomatch (st : MonitorState)
    (h : checkForExpansion st = false) :
    expandFromBuffer st = ([], st) := by
  cases hw : (stripWords st.buffer).getLast? with
  | none => simp only [expandFromBuffer, hw]
  | some w =>
      cases hp : st.shortcuts.lookup (lowerStr w) with
      | none => simp only [expandFromBuffer, hw, hp]
      | some p =>
          exact absurd ((checkForExpansion_true_iff st).mpr ⟨w, p, hw, hp⟩)
            (by rw [h]; exact Bool.false_ne_true)

/-! ### Counting the actions of a trace -/

theorem countBackspacePresses_append (a b : List Action) :
    countBackspacePresses (a ++ b) =
      countBackspacePresses a + countBackspacePresses b := by
  induction a with
  | nil => simp [countBackspacePresses]
  | cons x rest ih =>
      cases x with
      | press k => cases k <;> simp [countBackspacePresses, ih] <;> omega
      | release k => cases k <;> simp [countBackspacePresses, ih]
      | sleep ms => simp [countBackspacePresses, ih]
      | setClipboard s => simp [countBackspacePresses, ih]
      | emitExpansion k p => simp [countBackspacePresses, ih]

theorem countBackspaceReleases_append (a b : List Action) :
    countBackspaceReleases (a ++ b) =
      countBackspaceReleases a + countBackspaceReleases b := by
  induction a with
  | nil => simp [countBackspaceReleases]
  | cons x rest ih =>
      cases x with
      | press k => cases k <;> simp [countBackspaceReleases, ih]
      | release k => cases k <;> simp [countBackspaceReleases, ih] <;> omega
      | sleep ms => simp [countBackspaceReleases, ih]
      | setClipboard s => simp [countBackspaceReleases, ih]
      | emitExpansion k p => simp [countBackspaceReleases, ih]

theorem clipboardWrites_append (a b : List Action) :
    clipboardWrites (a ++ b) = clipboardWrites a ++ clipboardWrites b := by
  induction a with
  | nil => simp [clipboardWrites]
  | cons x rest ih =>
      cases x with
      | press k => simp [clipboardWrites, ih]
      | release k => simp [clipboardWrites, ih]
      | sleep ms => simp [clipboardWrites, ih]
      | setClipboard s => simp [clipboardWrites, ih]
      | emitExpansion k p => simp [clipboardWrites, ih]

theorem emitsOf_append (a b : List Action) :
    emitsOf (a ++ b) = emitsOf a ++ emitsOf b := by
  induction a with
  | nil => simp [emitsOf]
  | cons x rest ih =>
      cases x with
      | press k => simp [emitsOf, ih]
      | release k => simp [emitsOf, ih]
      | sleep ms => simp [emitsOf, ih]
      | setClipboard s => simp [emitsOf, ih]
      | emitExpansion k p => simp [emitsOf, ih]

theorem backspaceBurst_presses (n : Nat) :
    countBackspacePresses (backspaceBurst n) = n := by
  induction n with
  | zero => rfl
  | succ n ih => simp [backspaceBurst, countBackspacePresses, ih]

theorem backspaceBurst_releases (n : Nat) :
    countBackspaceReleases (backspaceBurst n) = n := by
  induction n with
  | zero => rfl
  | succ n ih => simp [backspaceBurst, countBackspaceReleases, ih]

theorem backspaceBurst_clipboardWrites (n : Nat) :
    clipboardWrites (backspaceBurst n) = [] := by
  induction n with
  | zero => rfl
  | succ n ih => simp [backspaceBurst, clipboardWrites, ih]

theorem backspaceBurst_emits (n : Nat) :
    emitsOf (backspaceBurst n) = [] := by
  induction n with
  | zero => rfl
  | succ n ih => simp [backspaceBurst, emitsOf, ih]

theorem expandTrace_counts (st : MonitorState) (w phrase : String)
    (hw : (stripWords st.buffer).getLast? = some w)
    (hp : st.shortcuts.lookup (lowerStr w) = some phrase) :
    countBackspacePresses (expandFromBuffer st).1 = (lowerStr w).length ∧
    countBackspaceReleases (expandFromBuffer st).1 = (lowerStr w).length ∧
    clipboardWrites (expandFromBuffer st).1 = [phrase] ∧
    emitsOf (expandFromBuffer st).1 = [(lowerStr w, phrase)] := by
  rw [expandFromBuffer_match st w phrase hw hp]
  refine ⟨?_, ?_, ?_, ?_⟩ <;>
    simp [countBackspacePresses_append, countBackspaceReleases_append,
      clipboardWrites_append, emitsOf_append,
      backspaceBurst_presses, backspaceBurst_releases,
      backspaceBurst_clipboardWrites, backspaceBurst_emits,
      countBackspacePresses, countBackspaceReleases,
      clipboardWrites, emitsOf, pasteChord]

/-! ### Shape of the state after the shared procedures -/

theorem expandFromBuffer_state (st : MonitorState) :
    (expandFromBuffer st).2 = st ∨
      (expandFromBuffer st).2 = { st with buffer := "" } := by
  cases hw : (stripWords st.buffer).getLast? with
  | none => left; simp only [expandFromBuffer, hw]
  | some w =>
      cases hp : st.shortcuts.lookup (lowerStr w) with
      | none => left; simp only [expandFromBuffer, hw, hp]
      | some p => right; simp only [expandFromBuffer, hw, hp]

@[simp] theorem expandFromBuffer_mode (st : MonitorState) :
    (expandFromBuffer st).2.mode = st.mode := by
  rcases expandFromBuffer_state st with h | h <;> rw [h]

@[simp] theorem expandFromBuffer_pending (st : MonitorState) :
    (expandFromBuffer st).2.pending_expansion = st.pending_expansion := by
  rcases expandFromBuffer_state st with h | h <;> rw [h]

@[simp] theorem expandFromBuffer_ctrl (st : MonitorState) :
    (expandFromBuffer st).2.ctrl_pressed = st.ctrl_pressed := by
  rcases expandFromBuffer_state st with h | h <;> rw [h]

@[simp] theorem expandFromBuffer_shortcuts (st : MonitorState) :
    (expandFromBuffer st).2.shortcuts = st.shortcuts := by
  rcases expandFromBuffer_state st with h | h <;> rw [h]

@[simp] theorem expandFromBuffer_time (st : MonitorState) :
    (expandFromBuffer st).2.last_key_time = st.last_key_time := by
  rcases expandFromBuffer_state st with h | h <;> rw [h]

@[simp] theorem applyIdleReset_mode (st : MonitorState) (t : ℚ) :
    (applyIdleReset st t).mode = st.mode := by
  unfold applyIdleReset
  split_ifs <;> rfl

@[simp] theorem applyIdleReset_pending (st : MonitorState) (t : ℚ) :
    (applyIdleReset st t).pending_expansion = st.pending_expansion := by
  unfold applyIdleReset
  split_ifs <;> rfl

@[simp] theorem applyIdleReset_ctrl (st : MonitorState) (t : ℚ) :
    (applyIdleReset st t).ctrl_pressed = st.ctrl_pressed := by
  unfold applyIdleReset
  split_ifs <;> rfl

@[simp] theorem applyIdleReset_shortcuts (st : MonitorState) (t : ℚ) :
    (applyIdleReset st t).shortcuts = st.shortcuts := by
  unfold applyIdleReset
  split_ifs <;> rfl

theorem hotkeyDispatch_mode (st : MonitorState) (key : Key) :
    (hotkeyDispatch st key).2.2.mode = st.mode := by
  unfold hotkeyDispatch
  cases key <;> (try split_ifs) <;> simp

theorem autoDispatch_mode (st : MonitorState) (key : Key) :
    (autoDispatch st key).2.2.mode = st.mode := by
  unfold autoDispatch
  cases key <;> (try split_ifs) <;> simp

theorem hotkeyDispatch_pending (st : MonitorState) (key : Key) :
    (hotkeyDispatch st key).2.2.pending_expansion = st.pending_expansion := by
  unfold hotkeyDispatch
  cases key <;> (try split_ifs) <;> simp

theorem normalStep_mode (st : MonitorState) (key : Key) (t : ℚ) :
    (normalStep st key t).2.2.mode = st.mode := by
  simp only [normalStep, applyIdleReset_mode]
  split_ifs with h
  · simp
  · cases hmode : st.mode <;>
      simp [hmode, hotkeyDispatch_mode, autoDispatch_mode]

theorem normalStep_hotkey_pending (st : MonitorState) (key : Key) (t : ℚ)
    (hm : st.mode = Mode.hotkey) :
    (normalStep st key t).2.2.pending_expansion = st.pending_expansion := by
  simp only [normalStep, applyIdleReset_mode]
  split_ifs with h
  · simp
  · simp [hm, hotkeyDispatch_pending]

theorem onPress_mode (st : MonitorState) (key : Key) (t : ℚ) :
    (onPress st key t).2.2.mode = st.mode := by
  unfold onPress
  split_ifs with h
  · rfl
  · exact normalStep_mode st key t

theorem onRelease_mode (st : MonitorState) (key : Key) :
    (onRelease st key).mode = st.mode := by
  unfold onRelease
  split_ifs <;> rfl

theorem onPress_hotkey_pending (st : MonitorState) (key : Key) (t : ℚ)
    (hm : st.mode = Mode.hotkey) (hp : st.pending_expansion = false) :
    (onPress st key t).2.2.pending_expansion = false := by
  unfold onPress
  split_ifs with h
  · rfl
  · rw [normalStep_hotkey_pending st key t hm]
    exact hp

theorem onRelease_pending (st : MonitorState) (key : Key) :
    (onRelease st key).pending_expansion = st.pending_expansion := by
  unfold onRelease
  split_ifs <;> rfl

theorem stepEvent_mode (st : MonitorState) (e : Event) :
    (stepEvent st e).2.2.mode = st.mode := by
  cases e with
  | press k t => exact onPress_mode st k t
  | release k => exact onRelease_mode st k

theorem stepEvent_hotkey_pending (st : MonitorState) (e : Event)
    (hm : st.mode = Mode.hotkey) (hp : st.pending_expansion = false) :
    (stepEvent st e).2.2.pending_expansion = false := by
  cases e with
  | press k t => exact onPress_hotkey_pending st k t hm hp
  | release k =>
      show (onRelease st k).pending_expansion = false
      rw [onRelease_pending]
      exact hp

theorem runEvents_hotkey_pending (st : MonitorState) (es : List Event)
    (hm : st.mode = Mode.hotkey) (hp : st.pending_expansion = false) :
    (runEvents st es).pending_expansion = false := by
  induction es generalizing st with
  | nil => exact hp
  | cons e rest ih =>
      exact ih _ ((stepEvent_mode st e).trans hm)
        (stepEvent_hotkey_pending st e hm hp)

/-! ### Behaviour of `on_press` on each class of key -/

theorem isDelimiter_true_iff (key : Key) :
    isDelimiter key = true ↔
      key = Key.space ∨ key = Key.enter ∨ key = Key.tab := by
  cases key <;> simp [isDelimiter]

theorem onPress_no_pending (st : MonitorState) (key : Key) (t : ℚ)
    (h : st.pending_expansion = false) :
    onPress st key t = normalStep st key t := by
  unfold onPress
  rw [if_neg]
  simp [h]

theorem applyIdleReset_no_gap (st : MonitorState) (t : ℚ)
    (hgap : ¬ t - st.last_key_time > 2) :
    applyIdleReset st t = st := by
  unfold applyIdleReset
  rw [if_neg hgap]

theorem applyIdleReset_gap (st : MonitorState) (t : ℚ)
    (hgap : t - st.last_key_time > 2) :
    applyIdleReset st t = { st with buffer := "" } := by
  unfold applyIdleReset
  rw [if_pos hgap]

theorem buffer_empty_of_not_pos (s : String) (h : ¬ s.length > 0) : s = "" := by
  cases s with
  | mk data =>
      cases data with
      | nil => rfl
      | cons c rest => exact absurd (by simp [String.length]) h

theorem onPress_char_eq (st : MonitorState) (c : Char) (t : ℚ)
    (hgap : ¬ t - st.last_key_time > 2) :
    onPress st (Key.char c) t =
      (Decision.forward, [],
        { st with buffer := pushChar st.buffer c, last_key_time := t }) := by
  unfold onPress
  rw [if_neg (by simp [isDelimiter])]
  simp only [normalStep, applyIdleReset_no_gap st t hgap]
  rw [if_neg (by simp)]
  cases hmode : st.mode <;> simp [hmode, hotkeyDispatch, autoDispatch]

theorem onPress_backspace_eq (st : MonitorState) (t : ℚ)
    (hgap : ¬ t - st.last_key_time > 2) :
    onPress st Key.backspace t =
      (Decision.forward, [],
        { st with buffer := popLast st.buffer, last_key_time := t }) := by
  unfold onPress
  rw [if_neg (by simp [isDelimiter])]
  simp only [normalStep, applyIdleReset_no_gap st t hgap]
  rw [if_neg (by simp)]
  by_cases hlen : st.buffer.length > 0
  · cases hmode : st.mode <;>
      simp [hmode, hotkeyDispatch, autoDispatch, hlen]
  · have hbuf : st.buffer = "" := buffer_empty_of_not_pos st.buffer hlen
    cases hmode : st.mode <;>
      simp [hmode, hotkeyDispatch, autoDispatch, hlen, hbuf, popLast]

theorem checkForExpansion_eq_of (st st' : MonitorState)
    (hb : st'.buffer = st.buffer) (hs : st'.shortcuts = st.shortcuts) :
    checkForExpansion st' = checkForExpansion st := by
  unfold checkForExpansion
  rw [hb, hs]

theorem expandFromBuffer_actions_congr (st st' : MonitorState)
    (hb : st'.buffer = st.buffer) (hs : st'.shortcuts = st.shortcuts) :
    (expandFromBuffer st').1 = (expandFromBuffer st).1 := by
  cases hw : (stripWords st.buffer).getLast? with
  | none => simp only [expandFromBuffer, hb, hs, hw]
  | some w =>
      cases hp : st.shortcuts.lookup (lowerStr w) with
      | none => simp only [expandFromBuffer, hb, hs, hw, hp]
      | some p => simp only [expandFromBuffer, hb, hs, hw, hp]

/-! ### Auto-mode delimiter handling -/

theorem checkForExpansion_empty_buffer (st : MonitorState) (hb : st.buffer = "") :
    checkForExpansion st = false := by
  unfold checkForExpansion
  rw [hb]
  rfl

theorem onPress_auto_delimiter_match (st : MonitorState) (key : Key) (t : ℚ)
    (hmode : st.mode = Mode.auto)
    (hpend : st.pending_expansion = false)
    (hgap : ¬ t - st.last_key_time > 2)
    (hdelim : isDelimiter key = true)
    (hcheck : checkForExpansion st = true) :
    onPress st key t =
      (Decision.suppress,
        (expandFromBuffer
          { st with last_key_time := t, pending_expansion := true }).1,
        (expandFromBuffer
          { st with last_key_time := t, pending_expansion := true }).2) := by
  rw [onPress_no_pending st key t hpend]
  simp only [normalStep, applyIdleReset_no_gap st t hgap]
  rw [if_neg (by
    rcases (isDelimiter_true_iff key).mp hdelim with h | h | h <;> subst h <;> simp)]
  rcases (isDelimiter_true_iff key).mp hdelim with h | h | h <;> subst h <;>
    simp [hmode, autoDispatch] <;>
    exact (checkForExpansion_eq_of st _ rfl rfl).trans hcheck

theorem onPress_auto_delimiter_nomatch (st : MonitorState) (key : Key) (t : ℚ)
    (hmode : st.mode = Mode.auto)
    (hpend : st.pending_expansion = false)
    (hdelim : isDelimiter key = true)
    (hcheck : checkForExpansion st = false) :
    onPress st key t =
      (Decision.forward, [], { st with buffer := "", last_key_time := t }) := by
  rw [onPress_no_pending st key t hpend]
  by_cases hgap : t - st.last_key_time > 2
  · simp only [normalStep, applyIdleReset_gap st t hgap]
    rw [if_neg (by
      rcases (isDelimiter_true_iff key).mp hdelim with h | h | h <;> subst h <;> simp)]
    rcases (isDelimiter_true_iff key).mp hdelim with h | h | h <;> subst h <;>
      simp [hmode, autoDispatch] <;>
      exact checkForExpansion_empty_buffer _ rfl
  · simp only [normalStep, applyIdleReset_no_gap st t hgap]
    rw [if_neg (by
      rcases (isDelimiter_true_iff key).mp hdelim with h | h | h <;> subst h <;> simp)]
    rcases (isDelimiter_true_iff key).mp hdelim with h | h | h <;> subst h <;>
      simp [hmode, autoDispatch] <;>
      exact (checkForExpansion_eq_of st _ rfl rfl).trans hcheck

/-! ### Claim theorems -/

/-- C1: in auto-expand mode, when the buffer's last whitespace-delimited
token, lower-cased, is a key of the snapshot and a delimiter (Space, Enter
or Tab) is pressed, the press sets `pending_expansion`, synthesizes exactly
`len(keyword)` backspace press/release pairs, writes the mapped phrase to
the clipboard, suppresses the delimiter, clears the buffer, and emits the
expansion-completed notification with that keyword and phrase exactly
once. -/
theorem auto_match_expansion (st : MonitorState) (key : Key) (t : ℚ)
    (w phrase : String)
    (hmode : st.mode = Mode.auto)
    (hpend : st.pending_expansion = false)
    (hgap : ¬ t - st.last_key_time > 2)
    (hdelim : isDelimiter key = true)
    (hw : (stripWords st.buffer).getLast? = some w)
    (hp : st.shortcuts.lookup (lowerStr w) = some phrase) :
    (onPress st key t).1 = Decision.suppress ∧
    (onPress st key t).2.2.pending_expansion = true ∧
    (onPress st key t).2.2.buffer = "" ∧
    countBackspacePresses (onPress st key t).2.1 = (lowerStr w).length ∧
    countBackspaceReleases (onPress st key t).2.1 = (lowerStr w).length ∧
    clipboardWrites (onPress st key t).2.1 = [phrase] ∧
    emitsOf (onPress st key t).2.1 = [(lowerStr w, phrase)] := by
  have hcheck : checkForExpansion st = true :=
    (checkForExpansion_true_iff st).mpr ⟨w, phrase, hw, hp⟩
  have hstep := onPress_auto_delimiter_match st key t hmode hpend hgap hdelim hcheck
  have hacts : (onPress st key t).2.1 = (expandFromBuffer st).1 := by
    rw [hstep]
    exact expandFromBuffer_actions_congr st _ rfl rfl
  obtain ⟨c1, c2, c3, c4⟩ := expandTrace_counts st w phrase hw hp
  refine ⟨by rw [hstep], ?_, ?_, ?_, ?_, ?_, ?_⟩
  · rw [hstep]
    show (expandFromBuffer _).2.pending_expansion = true
    rw [expandFromBuffer_pending]
  · rw [hstep]
    rw [expandFromBuffer_match
      { st with last_key_time := t, pending_expansion := true } w phrase hw hp]
  · rw [hacts, c1]
  · rw [hacts, c2]
  · rw [hacts, c3]
  · rw [hacts, c4]

/-- Witness for C1 at the spec's worked example: buffer `"please tady"`,
Space pressed one second after the last key. -/
theorem auto_match_expansion_witness :
    (onPress sampleAuto Key.space 1).1 = Decision.suppress ∧
    (onPress sampleAuto Key.space 1).2.2.pending_expansion = true ∧
    (onPress sampleAuto Key.space 1).2.2.buffer = "" ∧
    countBackspacePresses (onPress sampleAuto Key.space 1).2.1 =
      (lowerStr "tady").length ∧
    countBackspaceReleases (onPress sampleAuto Key.space 1).2.1 =
      (lowerStr "tady").length ∧
    clipboardWrites (onPress sampleAuto Key.space 1).2.1 =
      ["Thank you very much in advance."] ∧
    emitsOf (onPress sampleAuto Key.space 1).2.1 =
      [(lowerStr "tady", "Thank you very much in advance.")] :=
  auto_match_expansion sampleAuto Key.space 1 "tady"
    "Thank you very much in advance." rfl rfl
    (by norm_num [sampleAuto]) rfl (by decide) (by decide)

/-- C2: the action trace of one matching expansion is, in order: the
`len(keyword)` backspace press/release pairs, the clipboard write, the
paste chord, and the expansion-completed notification; the buffer is
cleared at the end. -/
theorem expand_trace_ordered (st : MonitorState) (w phrase : String)
    (hw : (stripWords st.buffer).getLast? = some w)
    (hp : st.shortcuts.lookup (lowerStr w) = some phrase) :
    (expandFromBuffer st).1 =
      backspaceBurst (lowerStr w).length
        ++ [Action.setClipboard phrase, Action.sleep 50]
        ++ pasteChord
        ++ [Action.emitExpansion (lowerStr w) phrase] ∧
    countBackspacePresses (backspaceBurst (lowerStr w).length) =
      (lowerStr w).length ∧
    countBackspaceReleases (backspaceBurst (lowerStr w).length) =
      (lowerStr w).length ∧
    (expandFromBuffer st).2.buffer = "" := by
  rw [expandFromBuffer_match st w phrase hw hp]
  exact ⟨rfl, backspaceBurst_presses _, backspaceBurst_releases _, rfl⟩

/-- Witness for C2 at the worked example. -/
theorem expand_trace_ordered_witness :
    (expandFromBuffer sampleAuto).1 =
      backspaceBurst (lowerStr "tady").length
        ++ [Action.setClipboard "Thank you very much in advance.",
            Action.sleep 50]
        ++ pasteChord
        ++ [Action.emitExpansion (lowerStr "tady")
              "Thank you very much in advance."] :=
  (expand_trace_ordered sampleAuto "tady" "Thank you very much in advance."
    (by decide) (by decide)).1

/-- C3: with `pending_expansion` set, the next delimiter press is
suppressed with no actions and clears the flag; once the flag is clear,
any later press is handled by the normal classification path. -/
theorem pending_delimiter_suppressed_once (st : MonitorState) (key : Key)
    (t : ℚ)
    (hpend : st.pending_expansion = true)
    (hdelim : isDelimiter key = true) :
    onPress st key t =
      (Decision.suppress, [], { st with pending_expansion := false }) ∧
    (onPress st key t).2.2.pending_expansion = false ∧
    (∀ (st' : MonitorState) (key' : Key) (t' : ℚ),
      st'.pending_expansion = false →
      onPress st' key' t' = normalStep st' key' t') := by
  have h1 : onPress st key t =
      (Decision.suppress, [], { st with pending_expansion := false }) := by
    unfold onPress
    rw [if_pos ⟨hpend, hdelim⟩]
  exact ⟨h1, by rw [h1],
    fun st' key' t' h => onPress_no_pending st' key' t' h⟩

/-- Witness for C3: a pending monitor consumes a Space press. -/
theorem pending_delimiter_suppressed_once_witness :
    onPress samplePending Key.space 1 =
      (Decision.suppress, [],
        { samplePending with pending_expansion := false }) :=
  (pending_delimiter_suppressed_once samplePending Key.space 1 rfl rfl).1

/-- C9: consuming the pending delimiter changes only `pending_expansion`:
the buffer, the modifier state, the mode and the idle timestamp are all
untouched, and no synthetic action is performed. -/
theorem pending_consume_frame (st : MonitorState) (key : Key) (t : ℚ)
    (hpend : st.pending_expansion = true)
    (hdelim : isDelimiter key = true) :
    (onPress st key t).1 = Decision.suppress ∧
    (onPress st key t).2.1 = [] ∧
    (onPress st key t).2.2 = { st with pending_expansion := false } ∧
    (onPress st key t).2.2.buffer = st.buffer ∧
    (onPress st key t).2.2.last_key_time = st.last_key_time ∧
    (onPress st key t).2.2.ctrl_pressed = st.ctrl_pressed ∧
    (onPress st key t).2.2.mode = st.mode ∧
    (onPress st key t).2.2.pending_expansion = false := by
  have h1 : onPress st key t =
      (Decision.suppress, [], { st with pending_expansion := false }) := by
    unfold onPress
    rw [if_pos ⟨hpend, hdelim⟩]
  rw [h1]
  exact ⟨rfl, rfl, rfl, rfl, rfl, rfl, rfl, rfl⟩

/-- Witness for C9: a pending monitor consumes a Tab press without
touching the rest of the state. -/
theorem pending_consume_frame_witness :
    (onPress samplePending Key.tab 5).2.2 =
      { samplePending with pending_expansion := false } :=
  (pending_consume_frame samplePending Key.tab 5 rfl rfl).2.2.1

theorem checkForExpansion_last_none (st : MonitorState)
    (h : (stripWords st.buffer).getLast? = none) :
    checkForExpansion st = false := by
  unfold checkForExpansion
  rw [h]

theorem checkForExpansion_last_some (st : MonitorState) (w : String)
    (h : (stripWords st.buffer).getLast? = some w) :
    checkForExpansion st = (st.shortcuts.lookup (lowerStr w)).isSome := by
  unfold checkForExpansion
  rw [h]

theorem expandFromBuffer_last_none (st : MonitorState)
    (h : (stripWords st.buffer).getLast? = none) :
    expandFromBuffer st = ([], st) := by
  simp only [expandFromBuffer, h]

theorem expandFromBuffer_lookup_none (st : MonitorState) (w : String)
    (hw : (stripWords st.buffer).getLast? = some w)
    (hp : st.shortcuts.lookup (lowerStr w) = none) :
    expandFromBuffer st = ([], st) := by
  simp only [expandFromBuffer, hw, hp]

theorem onPress_char_gap_eq (st : MonitorState) (c : Char) (t : ℚ)
    (hgap : t - st.last_key_time > 2) :
    onPress st (Key.char c) t =
      (Decision.forward, [],
        { st with buffer := pushChar "" c, last_key_time := t }) := by
  unfold onPress
  rw [if_neg (by simp [isDelimiter])]
  simp only [normalStep, applyIdleReset_gap st t hgap]
  rw [if_neg (by simp)]
  cases hmode : st.mode <;> simp [hmode, hotkeyDispatch, autoDispatch]

/-- C5: in auto mode, a delimiter press on a buffer whose last token is not
a snapshot keyword clears the buffer, forwards the delimiter, performs no
synthetic action, and emits no notification. -/
theorem auto_nomatch_forwards (st : MonitorState) (key : Key) (t : ℚ)
    (hmode : st.mode = Mode.auto)
    (hpend : st.pending_expansion = false)
    (hdelim : isDelimiter key = true)
    (hcheck : checkForExpansion st = false) :
    onPress st key t =
      (Decision.forward, [], { st with buffer := "", last_key_time := t }) ∧
    countBackspacePresses (onPress st key t).2.1 = 0 ∧
    clipboardWrites (onPress st key t).2.1 = [] ∧
    emitsOf (onPress st key t).2.1 = [] := by
  have h1 := onPress_auto_delimiter_nomatch st key t hmode hpend hdelim hcheck
  exact ⟨h1, by rw [h1]; rfl, by rw [h1]; rfl, by rw [h1]; rfl⟩

/-- Witness for C5: buffer `"hello world"` and an Enter press. -/
theorem auto_nomatch_forwards_witness :
    onPress sampleNoMatch Key.enter 1 =
      (Decision.forward, [],
        { sampleNoMatch with buffer := "", last_key_time := 1 }) :=
  (auto_nomatch_forwards sampleNoMatch Key.enter 1 rfl rfl rfl (by decide)).1

/-- C7: a gap of more than 2 seconds between two processed presses clears
the buffer before the mode-specific handling (a character typed after such
a gap lands in an empty buffer); a gap of at most 2 seconds leaves the
buffer untouched by this rule. -/
theorem idle_reset_two_seconds (st : MonitorState) (t : ℚ) (c : Char) :
    (t - st.last_key_time > 2 → (applyIdleReset st t).buffer = "") ∧
    (¬ t - st.last_key_time > 2 → applyIdleReset st t = st) ∧
    (t - st.last_key_time > 2 →
      (onPress st (Key.char c) t).2.2.buffer = pushChar "" c) ∧
    (¬ t - st.last_key_time > 2 →
      (onPress st (Key.char c) t).2.2.buffer = pushChar st.buffer c) := by
  refine ⟨?_, ?_, ?_, ?_⟩
  · intro h
    rw [applyIdleReset_gap st t h]
  · intro h
    exact applyIdleReset_no_gap st t h
  · intro h
    rw [onPress_char_gap_eq st c t h]
  · intro h
    rw [onPress_char_eq st c t h]

/-- Witness for C7: timestamps 0 and 2.1 seconds. -/
theorem idle_reset_two_seconds_witness :
    (onPress sampleAuto (Key.char 'x') (21 / 10)).2.2.buffer =
      pushChar "" 'x' :=
  (idle_reset_two_seconds sampleAuto (21 / 10) 'x').2.2.1
    (by norm_num [sampleAuto])

/-- C8: keyword lookup is case-insensitive: two buffers whose last tokens
agree after lower-casing produce the same match decision and the same
expansion actions (in particular the same phrase). -/
theorem case_insensitive_match (st : MonitorState) (b1 b2 : String)
    (h : ((stripWords b1).getLast?).map lowerStr =
         ((stripWords b2).getLast?).map lowerStr) :
    checkForExpansion { st with buffer := b1 } =
      checkForExpansion { st with buffer := b2 } ∧
    (expandFromBuffer { st with buffer := b1 }).1 =
      (expandFromBuffer { st with buffer := b2 }).1 := by
  cases h1 : (stripWords b1).getLast? with
  | none =>
      cases h2 : (stripWords b2).getLast? with
      | none =>
          refine ⟨?_, ?_⟩
          · rw [checkForExpansion_last_none _ h1,
              checkForExpansion_last_none _ h2]
          · rw [expandFromBuffer_last_none _ h1,
              expandFromBuffer_last_none _ h2]
      | some w2 =>
          rw [h1, h2] at h
          exact absurd h (by simp)
  | some w1 =>
      cases h2 : (stripWords b2).getLast? with
      | none =>
          rw [h1, h2] at h
          exact absurd h (by simp)
      | some w2 =>
          rw [h1, h2] at h
          have hl : lowerStr w1 = lowerStr w2 := by
            simpa using h
          refine ⟨?_, ?_⟩
          · rw [checkForExpansion_last_some _ w1 h1,
              checkForExpansion_last_some _ w2 h2, hl]
          · cases hp : List.lookup (lowerStr w1) st.shortcuts with
            | none =>
                rw [expandFromBuffer_lookup_none
                    { st with buffer := b1 } w1 h1 hp,
                  expandFromBuffer_lookup_none
                    { st with buffer := b2 } w2 h2 (hl ▸ hp)]
            | some p =>
                rw [expandFromBuffer_match { st with buffer := b1 } w1 p h1 hp,
                  expandFromBuffer_match
                    { st with buffer := b2 } w2 p h2 (hl ▸ hp), hl]

/-- Witness for C8: `"Tady"` and `"tady"` agree after lower-casing. -/
theorem case_insensitive_match_witness :
    checkForExpansion { sampleAuto with buffer := "Tady" } =
      checkForExpansion { sampleAuto with buffer := "tady" } :=
  (case_insensitive_match sampleAuto "Tady" "tady" (by decide)).1

/-- C10: the match check and the expansion procedure agree: the check
returns true exactly when the expansion procedure emits its notification,
a true check yields a non-empty action trace and a cleared buffer, and a
false check makes the expansion procedure a perfect no-op. -/
theorem check_agrees_with_expand (st : MonitorState) :
    (checkForExpansion st = true ↔ emitsOf (expandFromBuffer st).1 ≠ []) ∧
    (checkForExpansion st = true →
      (expandFromBuffer st).1 ≠ [] ∧ (expandFromBuffer st).2.buffer = "") ∧
    (checkForExpansion st = false → expandFromBuffer st = ([], st)) := by
  refine ⟨⟨?_, ?_⟩, ?_, ?_⟩
  · intro h
    obtain ⟨w, p, hw, hp⟩ := (checkForExpansion_true_iff st).mp h
    obtain ⟨-, -, -, c4⟩ := expandTrace_counts st w p hw hp
    rw [c4]
    simp
  · intro h
    cases hb : checkForExpansion st with
    | true => rfl
    | false =>
        rw [expandFromBuffer_nomatch st hb] at h
        exact absurd rfl h
  · intro h
    obtain ⟨w, p, hw, hp⟩ := (checkForExpansion_true_iff st).mp h
    rw [expandFromBuffer_match st w p hw hp]
    refine ⟨?_, rfl⟩
    simp [pasteChord]
  · exact expandFromBuffer_nomatch st

/-- Witness for C10: the worked example emits its notification. -/
theorem check_agrees_with_expand_witness :
    emitsOf (expandFromBuffer sampleAuto).1 ≠ [] :=
  (check_agrees_with_expand sampleAuto).1.mp (by decide)

/-! ### Buffer construction and hotkey-mode lemmas -/

theorem onPress_backspace_gap_eq (st : MonitorState) (t : ℚ)
    (hgap : t - st.last_key_time > 2) :
    onPress st Key.backspace t =
      (Decision.forward, [],
        { st with buffer := "", last_key_time := t }) := by
  unfold onPress
  rw [if_neg (by simp [isDelimiter])]
  simp only [normalStep, applyIdleReset_gap st t hgap]
  rw [if_neg (by simp)]
  cases hmode : st.mode <;> simp [hmode, hotkeyDispatch, autoDispatch, popLast]

theorem string_eq_of_data (s : String) (l : List Char) (h : s.data = l) :
    s = String.mk l := by
  cases s
  exact congrArg String.mk h

theorem runEvents_charPresses_data (st : MonitorState)
    (cs : List (Char × ℚ)) (h : gapsChained st.last_key_time cs) :
    (runEvents st (charPresses cs)).buffer.data =
      st.buffer.data ++ cs.map Prod.fst := by
  induction cs generalizing st with
  | nil => simp [charPresses, runEvents]
  | cons p rest ih =>
      obtain ⟨c, tc⟩ := p
      obtain ⟨h1, h2⟩ := h
      have hgap : ¬ tc - st.last_key_time > 2 := not_lt.mpr h1
      have hstep := onPress_char_eq st c tc hgap
      have hrun : runEvents st (charPresses ((c, tc) :: rest)) =
          runEvents ({ st with buffer := pushChar st.buffer c, last_key_time := tc }) (charPresses rest) := by
        show runEvents (stepEvent st (Event.press (Key.char c) tc)).2.2
            (charPresses rest) = _
        rw [show (stepEvent st (Event.press (Key.char c) tc)).2.2 =
          (onPress st (Key.char c) tc).2.2 from rfl, hstep]
      rw [hrun, ih _ h2]
      simp [pushChar]

theorem normalStep_hotkey_plain_delimiter (st : MonitorState) (key : Key)
    (t : ℚ)
    (hmode : st.mode = Mode.hotkey) (hdelim : isDelimiter key = true)
    (hctrl : st.ctrl_pressed = false) :
    (normalStep st key t).1 = Decision.forward ∧
      (normalStep st key t).2.1 = [] := by
  simp only [normalStep, applyIdleReset_mode]
  rw [if_neg (by
    rcases (isDelimiter_true_iff key).mp hdelim with h | h | h <;> subst h <;> simp)]
  rcases (isDelimiter_true_iff key).mp hdelim with h | h | h <;> subst h <;>
    simp [hmode, hotkeyDispatch, applyIdleReset_ctrl, hctrl]

theorem normalStep_hotkey_no_trigger_actions (st : MonitorState) (key : Key)
    (t : ℚ)
    (hmode : st.mode = Mode.hotkey)
    (h : ¬(st.ctrl_pressed = true ∧ key = Key.space)) :
    (normalStep st key t).2.1 = [] := by
  simp only [normalStep, applyIdleReset_mode]
  by_cases hc : key = Key.ctrl_l ∨ key = Key.ctrl_r
  · rw [if_pos hc]
  · rw [if_neg hc]
    simp only [hmode]
    unfold hotkeyDispatch
    rw [if_neg (by simpa [applyIdleReset_ctrl] using h)]
    cases key <;> (try split_ifs) <;> simp

theorem onPress_hotkey_trigger (st : MonitorState) (t : ℚ)
    (hmode : st.mode = Mode.hotkey) (hpend : st.pending_expansion = false)
    (hctrl : st.ctrl_pressed = true) (hgap : ¬ t - st.last_key_time > 2) :
    onPress st Key.space t =
      (Decision.forward,
        (expandFromBuffer { st with last_key_time := t }).1,
        (expandFromBuffer { st with last_key_time := t }).2) := by
  rw [onPress_no_pending st Key.space t hpend]
  simp only [normalStep, applyIdleReset_no_gap st t hgap]
  rw [if_neg (by simp)]
  simp [hmode, hotkeyDispatch, hctrl]

/-- C4: in hotkey mode, a plain delimiter (Control not held) is forwarded
and performs no action; no press other than Control-held Space performs an
action; Control-held Space invokes the expansion procedure, never sets
`pending_expansion`, and never appends the Space to the buffer; and
`pending_expansion` stays clear under any event sequence. -/
theorem hotkey_mode_rules (st : MonitorState)
    (hmode : st.mode = Mode.hotkey)
    (hpend : st.pending_expansion = false) :
    (∀ es : List Event, (runEvents st es).pending_expansion = false) ∧
    (∀ (key : Key) (t : ℚ), isDelimiter key = true →
      st.ctrl_pressed = false →
      (onPress st key t).1 = Decision.forward ∧
        (onPress st key t).2.1 = []) ∧
    (∀ (key : Key) (t : ℚ), ¬(st.ctrl_pressed = true ∧ key = Key.space) →
      (onPress st key t).2.1 = []) ∧
    (∀ t : ℚ, st.ctrl_pressed = true → ¬ t - st.last_key_time > 2 →
      (onPress st Key.space t).2.1 =
        (expandFromBuffer { st with last_key_time := t }).1 ∧
      (onPress st Key.space t).2.2.pending_expansion = false ∧
      ((onPress st Key.space t).2.2.buffer = "" ∨
        (onPress st Key.space t).2.2.buffer = st.buffer)) := by
  refine ⟨?_, ?_, ?_, ?_⟩
  · intro es
    exact runEvents_hotkey_pending st es hmode hpend
  · intro key t hdelim hctrl
    rw [onPress_no_pending st key t hpend]
    exact normalStep_hotkey_plain_delimiter st key t hmode hdelim hctrl
  · intro key t h
    rw [onPress_no_pending st key t hpend]
    exact normalStep_hotkey_no_trigger_actions st key t hmode h
  · intro t hctrl hgap
    have hstep := onPress_hotkey_trigger st t hmode hpend hctrl hgap
    refine ⟨by rw [hstep], ?_, ?_⟩
    · rw [hstep]
      show (expandFromBuffer { st with last_key_time := t }).2.pending_expansion
          = false
      rw [expandFromBuffer_pending]
      exact hpend
    · rw [hstep]
      show (expandFromBuffer { st with last_key_time := t }).2.buffer = "" ∨
        (expandFromBuffer { st with last_key_time := t }).2.buffer = st.buffer
      rcases expandFromBuffer_state { st with last_key_time := t } with h | h <;>
        rw [h]
      · right; rfl
      · left; rfl

/-- Witness for C4: a plain Enter press in hotkey mode is forwarded with no
actions. -/
theorem hotkey_mode_rules_witness :
    (onPress sampleHotkey Key.enter 1).1 = Decision.forward ∧
      (onPress sampleHotkey Key.enter 1).2.1 = [] :=
  (hotkey_mode_rules sampleHotkey rfl rfl).2.1 Key.enter 1 rfl rfl

/-- C6: with gaps of at most 2 seconds, a delimiter-free character sequence
typed into an empty buffer yields exactly the concatenation of the typed
characters; Backspace drops the last buffer character and is a no-op on an
empty buffer. -/
theorem buffer_concatenation (st : MonitorState) :
    (∀ cs : List (Char × ℚ), st.buffer = "" → gapsWithin cs →
      (runEvents st (charPresses cs)).buffer = stringOfChars cs) ∧
    (∀ t : ℚ, ¬ t - st.last_key_time > 2 →
      (onPress st Key.backspace t).2.2.buffer = popLast st.buffer) ∧
    (∀ t : ℚ, st.buffer = "" →
      (onPress st Key.backspace t).2.2.buffer = "") := by
  refine ⟨?_, ?_, ?_⟩
  · intro cs hb hg
    cases cs with
    | nil =>
        simp only [charPresses, List.map_nil, runEvents]
        rw [hb]
        rfl
    | cons p rest =>
        obtain ⟨c, tc⟩ := p
        have hg' : gapsChained tc rest := hg
        have hstep : (onPress st (Key.char c) tc).2.2 =
            { st with buffer := pushChar "" c, last_key_time := tc } := by
          by_cases hgap : tc - st.last_key_time > 2
          · rw [onPress_char_gap_eq st c tc hgap]
          · rw [onPress_char_eq st c tc hgap, hb]
        have hrun : runEvents st (charPresses ((c, tc) :: rest)) =
            runEvents { st with buffer := pushChar "" c, last_key_time := tc }
              (charPresses rest) := by
          show runEvents (stepEvent st (Event.press (Key.char c) tc)).2.2
              (charPresses rest) = _
          rw [show (stepEvent st (Event.press (Key.char c) tc)).2.2 =
            (onPress st (Key.char c) tc).2.2 from rfl, hstep]
        rw [hrun]
        show _ = String.mk (((c, tc) :: rest).map Prod.fst)
        apply string_eq_of_data
        rw [runEvents_charPresses_data
          { st with buffer := pushChar "" c, last_key_time := tc } rest hg']
        simp [pushChar]
  · intro t hgap
    rw [onPress_backspace_eq st t hgap]
  · intro t hb
    by_cases hgap : t - st.last_key_time > 2
    · rw [onPress_backspace_gap_eq st t hgap]
    · rw [onPress_backspace_eq st t hgap, hb]
      rfl

/-- Witness for C6: typing `h` then `i` one second apart from an empty
buffer leaves the buffer `"hi"`. -/
theorem buffer_concatenation_witness :
    (runEvents { sampleAuto with buffer := "" }
      (charPresses [('h', 1), ('i', 2)])).buffer =
      stringOfChars [('h', 1), ('i', 2)] :=
  (buffer_concatenation { sampleAuto with buffer := "" }).1
    [('h', 1), ('i', 2)] rfl (by norm_num [gapsWithin, gapsChained])

end QuickTextPro
